import Mathlib

/-!
# FerrisWM — verification of the spec's claims against the source

A shallow embedding of the parts of the FerrisWM tiling window manager that
the claims speak about, together with theorems settling each claim.

Conventions of the embedding:
* Rust `u32` values are `Nat`s below `U32 = 2 ^ 32`.  Arithmetic that can
  overflow in the source is modelled with explicit wrapping operators
  (`u32add`, `u32mul`, `u32sub`), matching release-mode Rust; where the
  debug-mode panic matters for a claim, a checked (`Option`) variant is
  given alongside.  Division never wraps; division by zero panics in Rust
  in every build mode, so functions that can divide by zero return
  `Option`, with `none` for the panic.
* The `as i32` casts on rectangle coordinates are modelled by `toI32`,
  the usual two's-complement reinterpretation into `Int`.
* X window identifiers are opaque 32-bit resource ids; equality is the
  only operation used on them, so they are modelled as `Nat`.
-/

/-- The modulus `2 ^ 32` of Rust `u32` arithmetic. -/
def U32 : Nat := 4294967296

/-- The bound `2 ^ 31`: the first `u32` value that reinterprets as a negative `i32`. -/
def I32Half : Nat := 2147483648

/-- Wrapping `u32` addition (release-mode `+`). -/
def u32add (a b : Nat) : Nat := (a + b) % U32

/-- Wrapping `u32` multiplication (release-mode `*`). -/
def u32mul (a b : Nat) : Nat := (a * b) % U32

/-- Wrapping `u32` subtraction (release-mode `-`), for `a < U32`. -/
def u32sub (a b : Nat) : Nat := (a + (U32 - b % U32)) % U32

/-- Reinterpretation of a `u32` bit pattern as an `i32`, as in `x as i32`. -/
def toI32 (a : Nat) : Int := if a < I32Half then (a : Int) else (a : Int) - (U32 : Int)

theorem u32add_eq (a b : Nat) (h : a + b < U32) : u32add a b = a + b := by
  simpa [u32add] using Nat.mod_eq_of_lt h

theorem u32mul_eq (a b : Nat) (h : a * b < U32) : u32mul a b = a * b := by
  simpa [u32mul] using Nat.mod_eq_of_lt h

theorem u32sub_eq (a b : Nat) (hba : b ≤ a) (h : a < U32) : u32sub a b = a - b := by
  have hb : b < U32 := lt_of_le_of_lt hba h
  have hbmod : b % U32 = b := Nat.mod_eq_of_lt hb
  have : a + (U32 - b) = (a - b) + U32 := by omega
  simp only [u32sub, hbmod, this, Nat.add_mod_right]
  exact Nat.mod_eq_of_lt (by omega)

theorem toI32_eq (a : Nat) (h : a < I32Half) : toI32 a = (a : Int) := by
  simp [toI32, h]

/-! ## Workspace (src/workspace.rs)

`Workspace { windows: Vec<Window>, focus: Option<usize> }` with its
operations, translated method by method. -/

/-- An X window identifier (opaque id, compared by value). -/
abbrev Window : Type := Nat

/-- Struct `Workspace`: an ordered window list plus an optional focus index. -/
structure Workspace where
  windows : List Window
  focus : Option Nat
deriving Repr, DecidableEq

/-- Constructor `Workspace::default()`: empty list, no focus. -/
def Workspace.default : Workspace := ⟨[], none⟩

/-- Method `Workspace::get_focused_window`: `self.focus.and_then(|i| self.windows.get(i))`. -/
def Workspace.get_focused_window (ws : Workspace) : Option Window :=
  ws.focus.bind (fun i => ws.windows.get? i)

/-- Method `Workspace::num_of_windows`. -/
def Workspace.num_of_windows (ws : Workspace) : Nat := ws.windows.length

/-- Method `Workspace::set_focus`: rejects an out-of-range index, returns success flag. -/
def Workspace.set_focus (ws : Workspace) (idx : Nat) : Workspace × Bool :=
  if idx ≥ ws.windows.length then (ws, false)
  else ({ ws with focus := some idx }, true)

/-- Method `Workspace::push_window`: append; if focus was `None` it becomes the last index
(`self.windows.len().saturating_sub(1)` after the push). -/
def Workspace.push_window (ws : Workspace) (w : Window) : Workspace :=
  let windows := ws.windows ++ [w]
  { windows := windows
    focus := if ws.focus.isNone then some (windows.length - 1) else ws.focus }

/-- Method `Workspace::update_focus` (private): clear focus when empty, otherwise clamp a
stale index to `len - 1`. -/
def Workspace.update_focus (ws : Workspace) : Workspace :=
  if ws.windows.isEmpty then { ws with focus := none }
  else
    match ws.focus with
    | some f => if f < ws.windows.length then ws
                else { ws with focus := some (ws.windows.length - 1) }
    | none => { ws with focus := some (ws.windows.length - 1) }

/-- Method `Workspace::remove_window`: remove at `idx` when in range and re-run
`update_focus`; returns the removed window alongside the new state. -/
def Workspace.remove_window (ws : Workspace) (idx : Nat) : Option Window × Workspace :=
  if idx < ws.num_of_windows then
    (ws.windows.get? idx, Workspace.update_focus { ws with windows := ws.windows.eraseIdx idx })
  else (none, ws)

/-- Method `Workspace::removed_focused_window`: remove at the focus index, if any. -/
def Workspace.removed_focused_window (ws : Workspace) : Option Window × Workspace :=
  match ws.focus with
  | some idx => ws.remove_window idx
  | none => (none, ws)

/-- Method `Workspace::retain`: `self.windows.retain(f)` — note that the source does
*not* call `update_focus` afterwards. -/
def Workspace.retain (ws : Workspace) (f : Window → Bool) : Workspace :=
  { ws with windows := ws.windows.filter f }

/-- The workspace invariant of the data model (spec §3): a non-empty window list
has an in-range focus, an empty one has no focus. -/
def WsInv (ws : Workspace) : Prop :=
  (ws.windows ≠ [] → ∃ i, ws.focus = some i ∧ i < ws.windows.length) ∧
  (ws.windows = [] → ws.focus = none)

/-- The workspace operations of the claim, minus `retain` (which takes a
function argument and is treated separately). -/
inductive WsOp where
  | push (w : Window)
  | remove (idx : Nat)
  | removeFocused
  | setFocus (idx : Nat)
deriving Repr

/-- Run one workspace operation, keeping only the state. -/
def applyWsOp (ws : Workspace) (op : WsOp) : Workspace :=
  match op with
  | .push w => ws.push_window w
  | .remove idx => (ws.remove_window idx).2
  | .removeFocused => ws.removed_focused_window.2
  | .setFocus idx => (ws.set_focus idx).1

/-- Run a sequence of workspace operations from left to right. -/
def applyWsOps (ws : Workspace) (ops : List WsOp) : Workspace :=
  ops.foldl applyWsOp ws

theorem update_focus_inv (ws : Workspace) : WsInv ws.update_focus := by
  obtain ⟨wins, foc⟩ := ws
  unfold Workspace.update_focus WsInv
  rcases wins with _ | ⟨a, l⟩
  · simp
  · rcases foc with _ | f
    · refine ⟨fun _ => ⟨(a :: l).length - 1, by simp, by simp⟩, fun h => by simp at h⟩
    · by_cases hlt : f < (a :: l).length
      · simp only [List.isEmpty_cons, Bool.false_eq_true, if_false, if_pos hlt]
        exact ⟨fun _ => ⟨f, rfl, hlt⟩, fun h => by simp at h⟩
      · simp only [List.isEmpty_cons, Bool.false_eq_true, if_false, if_neg hlt]
        refine ⟨fun _ => ⟨(a :: l).length - 1, rfl, by simp⟩, fun h => by simp at h⟩

theorem push_window_inv (ws : Workspace) (h : WsInv ws) (w : Window) :
    WsInv (ws.push_window w) := by
  obtain ⟨wins, foc⟩ := ws
  obtain ⟨h1, h2⟩ := h
  unfold Workspace.push_window WsInv
  rcases foc with _ | f
  · refine ⟨fun _ => ⟨(wins ++ [w]).length - 1, by simp, by simp⟩,
            fun hemp => by simp at hemp⟩
  · rcases wins with _ | ⟨a, l⟩
    · cases h2 rfl
    · obtain ⟨i, hi, hilt⟩ := h1 (by simp)
      obtain rfl : f = i := by injection hi
      refine ⟨fun _ => ⟨f, by simp, ?_⟩, fun hemp => by simp at hemp⟩
      simp only [List.length_append] at hilt ⊢
      omega

theorem remove_window_inv (ws : Workspace) (h : WsInv ws) (idx : Nat) :
    WsInv (ws.remove_window idx).2 := by
  unfold Workspace.remove_window
  by_cases hlt : idx < ws.num_of_windows
  · simp only [if_pos hlt]
    exact update_focus_inv _
  · simpa [if_neg hlt] using h

theorem removed_focused_window_inv (ws : Workspace) (h : WsInv ws) :
    WsInv ws.removed_focused_window.2 := by
  unfold Workspace.removed_focused_window
  rcases ws.focus with _ | idx
  · exact h
  · exact remove_window_inv ws h idx

theorem set_focus_inv (ws : Workspace) (h : WsInv ws) (idx : Nat) :
    WsInv (ws.set_focus idx).1 := by
  unfold Workspace.set_focus
  by_cases hge : idx ≥ ws.windows.length
  · simpa [if_pos hge] using h
  · simp only [if_neg hge]
    push_neg at hge
    constructor
    · exact fun _ => ⟨idx, rfl, hge⟩
    · intro hemp
      rw [hemp] at hge
      simp at hge

theorem applyWsOp_inv (ws : Workspace) (h : WsInv ws) (op : WsOp) :
    WsInv (applyWsOp ws op) := by
  cases op with
  | push w => exact push_window_inv ws h w
  | remove idx => exact remove_window_inv ws h idx
  | removeFocused => exact removed_focused_window_inv ws h
  | setFocus idx => exact set_focus_inv ws h idx

/-- C1 counterexample: push one window (focus becomes `Some(0)`), then
`retain` with an always-false predicate.  The window list empties but the
focus stays `Some(0)`, breaking the invariant. -/
theorem retain_breaks_invariant :
    ¬ WsInv ((Workspace.default.push_window 0).retain (fun _ => false)) := by
  intro ⟨_, h2⟩
  have : (((Workspace.default.push_window 0).retain (fun _ => false)).windows : List Window)
      = [] := by rfl
  have hfoc := h2 this
  simp [Workspace.retain, Workspace.push_window, Workspace.default] at hfoc

/-- C1 (amended): the workspace invariant is preserved by every sequence of
`push_window`, `remove_window`, `removed_focused_window` and `set_focus`;
`retain` must be excluded, since the source does not re-clamp focus there. -/
theorem workspace_ops_preserve_invariant (ws : Workspace) (h : WsInv ws) (ops : List WsOp) :
    WsInv (applyWsOps ws ops) := by
  induction ops generalizing ws with
  | nil => exact h
  | cons op rest ih => exact ih _ (applyWsOp_inv ws h op)

/-- C1 witness: the amended theorem applied to a concrete workspace and a
concrete operation sequence. -/
theorem workspace_ops_preserve_invariant_witness :
    WsInv (applyWsOps Workspace.default
      [WsOp.push 7, WsOp.push 9, WsOp.setFocus 0, WsOp.remove 0, WsOp.removeFocused]) := by
  apply workspace_ops_preserve_invariant
  constructor
  · intro h; exact absurd rfl h
  · intro _; rfl

/-- C10: `get_focused_window` is total: `None` when focus is `None` or stale
(index out of range), and the window at the focus index otherwise. -/
theorem get_focused_window_total (ws : Workspace) :
    (ws.focus = none → ws.get_focused_window = none) ∧
    (∀ i, ws.focus = some i → ws.windows.length ≤ i → ws.get_focused_window = none) ∧
    (∀ i (h : i < ws.windows.length), ws.focus = some i →
      ws.get_focused_window = some (ws.windows.get ⟨i, h⟩)) := by
  refine ⟨fun h => by simp [Workspace.get_focused_window, h], ?_, ?_⟩
  · intro i hi hle
    simp only [Workspace.get_focused_window, hi, Option.bind_some]
    exact List.get?_eq_none.2 hle
  · intro i h hi
    simp [Workspace.get_focused_window, hi, List.get?_eq_get h]

/-- C10 witness: the totality theorem applied to concrete workspaces, one per
case (no focus, stale focus left by `retain`, valid focus). -/
theorem get_focused_window_total_witness :
    (Workspace.mk [] none).get_focused_window = none ∧
    (Workspace.mk [] (some 0)).get_focused_window = none ∧
    (Workspace.mk [5, 8] (some 1)).get_focused_window = some 8 := by
  refine ⟨(get_focused_window_total _).1 rfl,
          (get_focused_window_total _).2.1 0 rfl (by decide), ?_⟩
  exact (get_focused_window_total (Workspace.mk [5, 8] (some 1))).2.2 1 (by decide) rfl

/-! ## Padding helper (src/layout/mod.rs)

`pub(super) fn pad(dim: u32, border: u32) -> u32 { (dim - 2 * border).max(1) }`

The subtraction is an unchecked `u32` subtraction: it panics in debug builds
and wraps in release builds when `2 * border > dim`. -/

/-- Function `pad`, release-mode semantics: wrapping subtraction, then `.max(1)`. -/
def padW (dim border : Nat) : Nat := max (u32sub dim (u32mul 2 border)) 1

/-- Function `pad`, debug-mode semantics: `none` models the overflow panic of
`2 * border` or of `dim - 2 * border`. -/
def padChecked (dim border : Nat) : Option Nat :=
  if 2 * border < U32 then
    if 2 * border ≤ dim then some (max (dim - 2 * border) 1) else none
  else none

/-- Modelled from the spec: `pad(dim, b) = max(1, dim − 2·b)`, the saturating
padding the spec promises (spec §4.1); `effect.rs`-independent pure helper. -/
def padSpec (dim border : Nat) : Nat := max 1 (dim - 2 * border)

theorem padW_eq_padSpec (dim border : Nat) (hd : dim < U32) (hb : 2 * border ≤ dim) :
    padW dim border = padSpec dim border := by
  have h2 : 2 * border < U32 := lt_of_le_of_lt hb hd
  rw [padW, u32mul_eq 2 border h2, u32sub_eq dim (2 * border) hb hd, padSpec, Nat.max_comm]

/-- C2: at `dim = 0`, `border = 1` the source `pad` panics in debug mode and
returns `2^32 - 2` in release mode, while the spec's `pad` returns `1`. -/
theorem pad_underflow_bug :
    padChecked 0 1 = none ∧ padW 0 1 = U32 - 2 ∧ padSpec 0 1 = 1 := by
  refine ⟨by decide, ?_, by decide⟩
  rfl

/-! ## Interned atoms (src/atoms.rs)

The `atoms_struct!` invocation declares one field per interned atom name.
Exactly nine names appear in the source's `Atoms` struct. -/

/-- The atom names interned by the `Atoms` struct in `src/atoms.rs`, in
declaration order. -/
def internedAtomNames : List String :=
  ["_NET_NUMBER_OF_DESKTOPS", "_NET_CURRENT_DESKTOP", "_NET_SUPPORTED",
   "_NET_SUPPORTING_WM_CHECK", "_NET_WM_WINDOW_TYPE", "_NET_WM_WINDOW_TYPE_DOCK",
   "WM_PROTOCOLS", "WM_DELETE_WINDOW", "_NET_WM_DESKTOP"]

/-- Modelled from the spec: the required atom set of spec §6 (18 names). -/
def requiredAtomNames : List String :=
  ["_NET_NUMBER_OF_DESKTOPS", "_NET_CURRENT_DESKTOP", "_NET_SUPPORTED",
   "_NET_SUPPORTING_WM_CHECK", "_NET_WM_WINDOW_TYPE", "_NET_WM_WINDOW_TYPE_DOCK",
   "_NET_WM_NAME", "_NET_WM_DESKTOP", "_NET_WM_STATE", "_NET_WM_STATE_FULLSCREEN",
   "_NET_CLIENT_LIST", "_NET_ACTIVE_WINDOW", "_NET_WORKAREA", "_NET_DESKTOP_GEOMETRY",
   "_NET_CLOSE_WINDOW", "WM_PROTOCOLS", "WM_DELETE_WINDOW", "UTF8_STRING"]

/-- Atom fields read by the compiled modules `window_manager.rs` and `x11.rs`
but not declared in `atoms.rs` (given as the atom names they stand for). -/
def atomNamesUsedButNotInterned : List String :=
  ["UTF8_STRING", "_NET_ACTIVE_WINDOW", "_NET_CLIENT_LIST", "_NET_CLOSE_WINDOW",
   "_NET_WM_NAME", "_NET_WM_STATE", "_NET_WM_STATE_FULLSCREEN", "_NET_WORKAREA"]

/-- C3: the `Atoms` table does *not* cover the required atom set: every
interned name is required, but nine required names (among them
`_NET_ACTIVE_WINDOW`, which `window_manager.rs` itself reads as
`atoms.active_window`) have no field. -/
theorem atoms_table_incomplete :
    (internedAtomNames.all (fun s => requiredAtomNames.contains s)) = true ∧
    (requiredAtomNames.all (fun s => internedAtomNames.contains s)) = false ∧
    (requiredAtomNames.filter (fun s => !(internedAtomNames.contains s))).length = 9 ∧
    (atomNamesUsedButNotInterned.all
      (fun s => requiredAtomNames.contains s && !(internedAtomNames.contains s))) = true := by
  refine ⟨by decide, by decide, by decide, by decide⟩

/-! ## Effects and window closing (src/window_manager.rs, src/x11.rs)

`effect.rs` is not among the provided sources; the `Effect` union is
modelled from the spec (§4.4).  `WindowManager::close_window` and
`WindowManager::handle_client_message` are translated from
`src/window_manager.rs`. -/

/-- Modelled from the spec: the `Effect` tagged union of spec §4.4
(`effect.rs` is absent from the provided sources). -/
inductive Effect where
  | Map (w : Window)
  | Unmap (w : Window)
  | Focus (w : Window)
  | Raise (w : Window)
  | Configure (w : Window) (x y : Int) (width height border : Nat)
  | ConfigurePositionSize (w : Window) (x y : Int) (width height : Nat)
  | SetBorder (w : Window) (pixel : Nat) (width : Nat)
  | SetCardinal32 (w : Window) (atom : Nat) (value : Nat)
  | SetCardinal32List (w : Window) (atom : Nat) (values : List Nat)
  | SetAtomList (w : Window) (atom : Nat) (values : List Nat)
  | SetUtf8String (w : Window) (atom : Nat) (value : String)
  | SetWindowProperty (w : Window) (atom : Nat) (values : List Window)
  | KillClient (w : Window)
  | SendWmDelete (w : Window)
  | GrabKey (keycode : Nat) (modifiers : Nat) (grab_window : Window)
  | GrabButton (w : Window)
  | SubscribeEnterNotify (w : Window)
deriving Repr, DecidableEq

/-- Outcome of `X11::supports_wm_delete` (a `Result<bool, xcb::Error>`; the
error payload is irrelevant and erased to `Unit`). -/
abbrev WmDeleteQuery : Type := Except Unit Bool

/-- Method `WindowManager::close_window`: `SendWmDelete` when the window advertises
`WM_DELETE_WINDOW`, `KillClient` when it does not or when the query fails. -/
def close_window (query : WmDeleteQuery) (window : Window) : List Effect :=
  match query with
  | .ok true => [.SendWmDelete window]
  | .ok false => [.KillClient window]
  | .error _ => [.KillClient window]

/-- Which interned atom the client message's type equals (the three atoms
tested by `handle_client_message`, or none of them). -/
inductive ClientMsgType where
  | currentDesktop
  | activeWindow
  | closeWindow
  | other
deriving Repr, DecidableEq

/-- The payload union of an X client message (`x::ClientMessageData`). -/
inductive ClientMessageData where
  | data8 (d : List Nat)
  | data16 (d : List Nat)
  | data32 (d : List Nat)
deriving Repr, DecidableEq

/-- Method `WindowManager::handle_client_message`, with the state-reducer calls
(which live in the absent `state.rs`) abstracted as the effect lists they
return. -/
def handle_client_message (msg_type : ClientMsgType) (window : Window)
    (data : ClientMessageData) (wm_delete_query : WmDeleteQuery)
    (go_to_workspace_effects focus_window_effects sync_effects : List Effect) :
    List Effect :=
  match data with
  | .data8 _ => []
  | .data16 _ => []
  | .data32 _ =>
    match msg_type with
    | .currentDesktop => go_to_workspace_effects ++ sync_effects
    | .activeWindow => focus_window_effects ++ sync_effects
    | .closeWindow => close_window wm_delete_query window
    | .other => []

/-- C9: a `_NET_CLOSE_WINDOW` client message yields exactly `[SendWmDelete w]`
when the `WM_PROTOCOLS` query succeeds reporting support, and exactly
`[KillClient w]` when it succeeds reporting none or when it fails. -/
theorem close_window_message_effects (w : Window) (d : List Nat)
    (ge fe se : List Effect) :
    handle_client_message .closeWindow w (.data32 d) (.ok true) ge fe se
        = [Effect.SendWmDelete w] ∧
    handle_client_message .closeWindow w (.data32 d) (.ok false) ge fe se
        = [Effect.KillClient w] ∧
    handle_client_message .closeWindow w (.data32 d) (.error ()) ge fe se
        = [Effect.KillClient w] :=
  ⟨rfl, rfl, rfl⟩

/-! ## Rectangles and layouts (src/layout/)

`Rect { x: i32, y: i32, w: u32, h: u32 }` and the two layout algorithms,
translated with wrapping `u32` arithmetic and the `as i32` casts. -/

/-- Struct `Rect`: signed position, unsigned size. -/
structure Rect where
  x : Int
  y : Int
  w : Nat
  h : Nat
deriving Repr, DecidableEq

/-- Overlap of two rectangles' open interiors (both sizes are ≥ 1 for every
rectangle the layouts emit, so openness is exactly strict inequality on both
axes). -/
def Overlaps (r1 r2 : Rect) : Prop :=
  r1.x < r2.x + r2.w ∧ r2.x < r1.x + r1.w ∧
  r1.y < r2.y + r2.h ∧ r2.y < r1.y + r1.h

instance (r1 r2 : Rect) : Decidable (Overlaps r1 r2) := by
  unfold Overlaps; infer_instance

/-- Pairwise disjointness of the open interiors of a rectangle list. -/
def PairwiseDisjoint (l : List Rect) : Prop :=
  l.Pairwise (fun r1 r2 => ¬ Overlaps r1 r2)

instance (l : List Rect) : Decidable (PairwiseDisjoint l) := by
  unfold PairwiseDisjoint; exact List.instDecidablePairwise l

/-- The per-window loop of `HorizontalLayout::generate_layout`: `cum` is the
running `cumulative` value, `aw` is `area.w`, `ih` the precomputed
`inner_h`, `tb` = `total_border`, `g` = `window_gap`, `p` = `partitions`,
`tw` = `total_weights`. -/
def horizontalGo (aw ih tb g p tw : Nat) : Nat → List Nat → List Rect
  | _, [] => []
  | cum, weight :: rest =>
    let cell := u32mul aw weight / tw
    let inner_w := padW cell tb
    let x := u32add (u32mul cum p) g
    { x := toI32 x, y := toI32 g, w := inner_w, h := ih } ::
      horizontalGo aw ih tb g p tw (u32add cum weight) rest

/-- Method `HorizontalLayout::generate_layout`.  Here `none` models the division-by-zero
panic of `area.w / total_weights` when the (wrapped) weight sum is zero. -/
def horizontal_generate_layout (area : Rect) (weights : List Nat)
    (border_width window_gap : Nat) : Option (List Rect) :=
  let total_weights := weights.foldl u32add 0
  if total_weights = 0 then none
  else
    let total_border := u32add border_width window_gap
    let inner_h := padW area.h total_border
    let partitions := area.w / total_weights
    some (horizontalGo area.w inner_h total_border window_gap partitions total_weights 0 weights)

/-- The per-window loop of `MasterLayout::generate_layout`: `i` is the
absolute window index (for the split parity), `r` the number of windows not
yet emitted (`r = 1` means the current window is the last), and
`(px, py, pw, ph)` the remainder box `(prev_x, prev_y, prev_w, prev_h)`. -/
def masterGo (tb : Nat) : Nat → Nat → Nat → Nat → Nat → Nat → List Rect
  | _, 0, _, _, _, _ => []
  | _, 1, px, py, pw, ph =>
    [{ x := toI32 px, y := toI32 py, w := padW pw tb, h := padW ph tb }]
  | i, r + 2, px, py, pw, ph =>
    if i % 2 = 0 then
      let inner_w := pw / 2
      { x := toI32 px, y := toI32 py, w := padW inner_w tb, h := padW ph tb } ::
        masterGo tb (i + 1) (r + 1) (u32add px inner_w) py inner_w ph
    else
      let inner_h := ph / 2
      { x := toI32 px, y := toI32 py, w := padW pw tb, h := padW inner_h tb } ::
        masterGo tb (i + 1) (r + 1) px (u32add py inner_h) pw inner_h

/-- Method `MasterLayout::generate_layout`: dwindle split; weights are ignored apart
from their count. -/
def master_generate_layout (area : Rect) (weights : List Nat)
    (border_width window_gap : Nat) : List Rect :=
  let total_border := u32add border_width (window_gap / 2)
  masterGo total_border 0 weights.length window_gap window_gap
    (u32sub area.w window_gap) (u32sub area.h window_gap)

/-- C8: `HorizontalLayout::generate_layout` on an empty weights slice fails
(the weight sum is zero, so `area.w / total_weights` is a division by zero)
and returns no rectangle list. -/
theorem horizontal_empty_weights_fails (area : Rect) (border_width window_gap : Nat) :
    horizontal_generate_layout area [] border_width window_gap = none := rfl

/-! ## Counterexamples on the layout claims -/

/-- C4 counterexample: on `area = {0,0,1,1}`, `weights = [1,1]`, no border or
gap, both layouts emit the rectangle `{0,0,1,1}` twice — the interiors
overlap. -/
theorem layouts_can_overlap :
    ¬ PairwiseDisjoint ((horizontal_generate_layout ⟨0, 0, 1, 1⟩ [1, 1] 0 0).getD []) ∧
    ¬ PairwiseDisjoint (master_generate_layout ⟨0, 0, 1, 1⟩ [1, 1] 0 0) := by
  refine ⟨by decide, by decide⟩

/-- C5 counterexample: on `area = {0,0,7,100}`, doubling `[1,1]` to `[2,2]`
moves the second rectangle from `x = 3` to `x = 2` (the partition width
`area.w / T` loses a different remainder). -/
theorem horizontal_doubling_not_invariant :
    horizontal_generate_layout ⟨0, 0, 7, 100⟩ [1, 1] 0 0 ≠
      horizontal_generate_layout ⟨0, 0, 7, 100⟩ ([1, 1].map (fun w => 2 * w)) 0 0 := by
  decide

/-- C6 counterexample: on `area = {0,0,100,20}`, three windows, border `8`,
the second rectangle's `pad(10, 8)` wraps, so its area exceeds the
master's (in a debug build the same input panics). -/
theorem master_areas_can_increase :
    ¬ ((((master_generate_layout ⟨0, 0, 100, 20⟩ [1, 1, 1] 8 0).getD 1 ⟨0, 0, 0, 0⟩).w *
          ((master_generate_layout ⟨0, 0, 100, 20⟩ [1, 1, 1] 8 0).getD 1 ⟨0, 0, 0, 0⟩).h) ≤
        (((master_generate_layout ⟨0, 0, 100, 20⟩ [1, 1, 1] 8 0).getD 0 ⟨0, 0, 0, 0⟩).w *
          ((master_generate_layout ⟨0, 0, 100, 20⟩ [1, 1, 1] 8 0).getD 0 ⟨0, 0, 0, 0⟩).h)) := by
  decide

/-- Modelled from the spec: the rectangle list §4.1 prescribes for
`HorizontalLayout`, in exact (unbounded) arithmetic with the saturating
`padSpec`:  for `T = sum(weights)` and `P = area.w / T`,
`rect_i = { x: sum(weights[0..i])·P + gap, y: gap,
            w: pad(area.w·weights[i] / T, border+gap),
            h: pad(area.h, border+gap) }`. -/
def horizontalLayoutSpec (area : Rect) (weights : List Nat)
    (border_width window_gap : Nat) : List Rect :=
  let T := weights.sum
  let P := area.w / T
  (List.range weights.length).map (fun i =>
    { x := ((weights.take i).sum * P + window_gap : Nat)
      y := (window_gap : Nat)
      w := padSpec (area.w * weights.getD i 0 / T) (border_width + window_gap)
      h := padSpec area.h (border_width + window_gap) })

/-- C7 counterexample: on `area = {0,0,65536,16}`, `weights = [65536]`, the
source's `area.w * weight` wraps to `0`, so the emitted width is `1` while
the spec formula gives `65536`. -/
theorem horizontal_formula_wraps :
    horizontal_generate_layout ⟨0, 0, 65536, 16⟩ [65536] 0 0 ≠
      some (horizontalLayoutSpec ⟨0, 0, 65536, 16⟩ [65536] 0 0) := by
  decide

/-! ## Exact characterization of `HorizontalLayout` below the overflow bounds -/

theorem I32Half_lt_U32 : I32Half < U32 := by decide

theorem foldl_u32add_eq_sum (ws : List Nat) :
    ∀ a : Nat, a + ws.sum < U32 → ws.foldl u32add a = a + ws.sum := by
  induction ws with
  | nil => intro a _; simp
  | cons w rest ih =>
    intro a h
    simp only [List.sum_cons] at h
    rw [List.foldl_cons, u32add_eq a w (by omega), ih (a + w) (by omega)]
    simp [List.sum_cons, Nat.add_assoc]

theorem horizontalGo_exact (aw ihh tb g tw : Nat) (ws : List Nat) :
    ∀ cum : Nat, (∀ w ∈ ws, aw * w < U32) → cum + ws.sum < U32 →
      (cum + ws.sum) * (aw / tw) + g < I32Half →
      horizontalGo aw ihh tb g (aw / tw) tw cum ws =
        (List.range ws.length).map (fun i =>
          { x := ((cum + (ws.take i).sum) * (aw / tw) + g : Nat)
            y := (g : Nat)
            w := padW (aw * ws.getD i 0 / tw) tb
            h := ihh }) := by
  induction ws with
  | nil => intro cum _ _ _; simp [horizontalGo]
  | cons w rest ih =>
    intro cum hprod hcum hx
    have hsum : (w :: rest).sum = w + rest.sum := List.sum_cons
    have hcw : cum + w < U32 := by rw [hsum] at hcum; omega
    have hle : cum * (aw / tw) + g ≤ (cum + (w :: rest).sum) * (aw / tw) + g :=
      Nat.add_le_add_right (Nat.mul_le_mul_right _ (Nat.le_add_right _ _)) g
    have hcpg : cum * (aw / tw) + g < I32Half := lt_of_le_of_lt hle hx
    have hcp : cum * (aw / tw) < U32 :=
      lt_of_le_of_lt (Nat.le_add_right _ g) (lt_trans hcpg I32Half_lt_U32)
    have hglt : g < I32Half := lt_of_le_of_lt (Nat.le_add_left _ _) hcpg
    simp only [horizontalGo]
    rw [u32mul_eq aw w (hprod w (List.mem_cons_self w rest)),
        u32mul_eq cum (aw / tw) hcp,
        u32add_eq (cum * (aw / tw)) g (lt_trans hcpg I32Half_lt_U32),
        toI32_eq _ hcpg, toI32_eq g hglt,
        u32add_eq cum w hcw,
        ih (cum + w) (fun v hv => hprod v (List.mem_cons_of_mem w hv))
          (by rw [hsum] at hcum; omega)
          (by rw [hsum, ← Nat.add_assoc] at hx; exact hx)]
    rw [List.length_cons, List.range_succ_eq_map, List.map_cons, List.map_map]
    congr 1
    apply List.map_congr_left
    intro i _
    simp only [Function.comp_apply, List.take_succ_cons, List.sum_cons,
      List.getD_cons_succ, Nat.add_assoc]


theorem sum_map_two_mul (l : List Nat) : (l.map (fun w => 2 * w)).sum = 2 * l.sum := by
  induction l with
  | nil => simp
  | cons w rest ih => simp [ih, Nat.mul_add]

/-- Below the `u32` overflow bounds, `HorizontalLayout::generate_layout`
computes exactly the per-index formula (still with the source's `padW`). -/
theorem horizontal_generate_layout_exact (area : Rect) (ws : List Nat) (b g : Nat)
    (hS : 0 < ws.sum) (hSU : ws.sum < U32)
    (hprod : ∀ w ∈ ws, area.w * w < U32)
    (hx : area.w + g < I32Half) (htb : b + g < U32) :
    horizontal_generate_layout area ws b g =
      some ((List.range ws.length).map (fun i =>
        { x := ((ws.take i).sum * (area.w / ws.sum) + g : Nat)
          y := (g : Nat)
          w := padW (area.w * ws.getD i 0 / ws.sum) (b + g)
          h := padW area.h (b + g) })) := by
  have hfold : ws.foldl u32add 0 = ws.sum := by
    simpa using foldl_u32add_eq_sum ws 0 (by omega)
  have hxs : (0 + ws.sum) * (area.w / ws.sum) + g < I32Half := by
    rw [Nat.zero_add]
    have h1 : ws.sum * (area.w / ws.sum) ≤ area.w := by
      rw [Nat.mul_comm]
      exact Nat.div_mul_le_self area.w ws.sum
    omega
  have hstep : horizontal_generate_layout area ws b g =
      some (horizontalGo area.w (padW area.h (u32add b g)) (u32add b g) g
        (area.w / ws.sum) ws.sum 0 ws) := by
    unfold horizontal_generate_layout
    rw [hfold, if_neg (by omega)]
  rw [hstep, u32add_eq b g htb,
      horizontalGo_exact area.w (padW area.h (b + g)) (b + g) g ws.sum ws 0 hprod
        (by omega) hxs]
  congr 1
  apply List.map_congr_left
  intro i _
  simp

/-- C5 (amended): doubling every weight yields identical output provided the
doubled arithmetic stays below `2^32` and `2 · sum(weights)` divides
`area.w` (integer division of `area.w` by the weight sum is otherwise lossy
and shifts the x positions, as the counterexample shows). -/
theorem horizontal_doubling_invariant (area : Rect) (ws : List Nat) (b g : Nat)
    (hS : 0 < ws.sum) (hSU : 2 * ws.sum < U32)
    (hprod : ∀ w ∈ ws, area.w * (2 * w) < U32)
    (hx : area.w + g < I32Half) (htb : b + g < U32)
    (hdvd : 2 * ws.sum ∣ area.w) :
    horizontal_generate_layout area ws b g =
      horizontal_generate_layout area (ws.map (fun w => 2 * w)) b g := by
  obtain ⟨k, hk⟩ := hdvd
  have hsum2 : (ws.map (fun w => 2 * w)).sum = 2 * ws.sum := sum_map_two_mul ws
  have hP1 : area.w / ws.sum = 2 * k := by
    rw [hk, show 2 * ws.sum * k = ws.sum * (2 * k) by ring]
    exact Nat.mul_div_cancel_left _ hS
  have hP2 : area.w / (2 * ws.sum) = k := by
    rw [hk]
    exact Nat.mul_div_cancel_left _ (by omega)
  rw [horizontal_generate_layout_exact area ws b g hS (by omega)
        (fun w hw => lt_of_le_of_lt (Nat.mul_le_mul_left area.w (by omega)) (hprod w hw))
        hx htb,
      horizontal_generate_layout_exact area (ws.map (fun w => 2 * w)) b g
        (by omega) (by omega)
        (by intro w hw
            obtain ⟨v, hv, rfl⟩ := List.mem_map.1 hw
            exact hprod v hv)
        hx htb]
  rw [hsum2, List.length_map]
  congr 1
  apply List.map_congr_left
  intro i hi
  have hi' : i < ws.length := List.mem_range.1 hi
  have htake : ((ws.map (fun w => 2 * w)).take i).sum = 2 * (ws.take i).sum := by
    rw [← List.map_take, sum_map_two_mul]
  have hgetD : (ws.map (fun w => 2 * w)).getD i 0 = 2 * ws.getD i 0 := by
    rw [List.getD_eq_getElem?_getD, List.getD_eq_getElem?_getD, List.getElem?_map,
        List.getElem?_eq_getElem hi']
    rfl
  have hcell : area.w * (2 * ws.getD i 0) / (2 * ws.sum) = area.w * ws.getD i 0 / ws.sum := by
    rw [show area.w * (2 * ws.getD i 0) = 2 * (area.w * ws.getD i 0) by ring]
    exact Nat.mul_div_mul_left (area.w * ws.getD i 0) ws.sum (by omega)
  rw [htake, hgetD, hP1, hP2, hcell,
      show 2 * (ws.take i).sum * k = (ws.take i).sum * (2 * k) by ring]

/-- C7 (amended): `HorizontalLayout::generate_layout` equals the spec's
per-index formula provided the `u32` arithmetic does not wrap
(`area.w·weights[i] < 2^32`, `sum < 2^32`, `area.w + gap < 2^31`) and the
padding subtraction does not underflow (`2·(border+gap)` at most `area.h`
and at most every cell). -/
theorem horizontal_matches_spec_formula (area : Rect) (ws : List Nat) (b g : Nat)
    (hS : 0 < ws.sum) (hSU : ws.sum < U32)
    (hprod : ∀ w ∈ ws, area.w * w < U32)
    (hx : area.w + g < I32Half) (htb : b + g < U32) (hh : area.h < U32)
    (hpadh : 2 * (b + g) ≤ area.h)
    (hpadc : ∀ i < ws.length, 2 * (b + g) ≤ area.w * ws.getD i 0 / ws.sum) :
    horizontal_generate_layout area ws b g = some (horizontalLayoutSpec area ws b g) := by
  rw [horizontal_generate_layout_exact area ws b g hS hSU hprod hx htb]
  simp only [horizontalLayoutSpec]
  congr 1
  apply List.map_congr_left
  intro i hi
  have hi' : i < ws.length := List.mem_range.1 hi
  have hmem : ws.getD i 0 ∈ ws := by
    rw [List.getD_eq_getElem?_getD, List.getElem?_eq_getElem hi']
    exact List.getElem_mem hi'
  have hcellU : area.w * ws.getD i 0 / ws.sum < U32 :=
    lt_of_le_of_lt (Nat.div_le_self _ _) (hprod _ hmem)
  rw [padW_eq_padSpec _ _ hcellU (hpadc i hi'), padW_eq_padSpec _ _ hh hpadh]

/-- C7 witness: the amended formula theorem applied to the spec's own example
`generate({1000,800}, [1,1], 2, 4)`. -/
theorem horizontal_matches_spec_formula_witness :
    horizontal_generate_layout ⟨0, 0, 1000, 800⟩ [1, 1] 2 4 =
      some (horizontalLayoutSpec ⟨0, 0, 1000, 800⟩ [1, 1] 2 4) := by
  apply horizontal_matches_spec_formula
  · decide
  · decide
  · decide
  · decide
  · decide
  · decide
  · decide
  · decide

/-- C5 witness: the amended doubling theorem applied to the spec's example
`area = {1000,800}`, `weights = [1,1]` (and `2·sum = 4` divides `1000`). -/
theorem horizontal_doubling_invariant_witness :
    horizontal_generate_layout ⟨0, 0, 1000, 800⟩ [1, 1] 0 0 =
      horizontal_generate_layout ⟨0, 0, 1000, 800⟩ ([1, 1].map (fun w => 2 * w)) 0 0 := by
  apply horizontal_doubling_invariant
  · decide
  · decide
  · decide
  · decide
  · decide
  · decide

/-! ## Disjointness of `HorizontalLayout` under exact partitioning -/

theorem sum_take_le (l : List Nat) (k : Nat) : (l.take k).sum ≤ l.sum := by
  conv_rhs => rw [← List.take_append_drop k l]
  rw [List.sum_append]
  omega

theorem sum_take_mono (l : List Nat) {i j : Nat} (h : i ≤ j) :
    (l.take i).sum ≤ (l.take j).sum := by
  have heq : (l.take j).take i = l.take i := by
    rw [List.take_take, min_eq_left h]
  calc (l.take i).sum = ((l.take j).take i).sum := by rw [heq]
    _ ≤ (l.take j).sum := sum_take_le _ _

theorem padSpec_le (d tb : Nat) (hd : 1 ≤ d) : padSpec d tb ≤ d := by
  unfold padSpec
  omega

theorem horizontal_disjoint_aux (area : Rect) (ws : List Nat) (b g : Nat)
    (hw1 : ∀ w ∈ ws, 1 ≤ w)
    (hS : 0 < ws.sum) (hSU : ws.sum < U32)
    (hprod : ∀ w ∈ ws, area.w * w < U32)
    (hx : area.w + g < I32Half) (htb : b + g < U32)
    (hdvd : ws.sum ∣ area.w)
    (hP : 1 ≤ area.w / ws.sum)
    (hpad : 2 * (b + g) ≤ area.w / ws.sum) :
    PairwiseDisjoint ((horizontal_generate_layout area ws b g).getD []) := by
  rw [horizontal_generate_layout_exact area ws b g hS hSU hprod hx htb, Option.getD_some]
  have haw : ws.sum * (area.w / ws.sum) = area.w := Nat.mul_div_cancel' hdvd
  -- exact cell values
  have hcell : ∀ i, i < ws.length →
      area.w * ws.getD i 0 / ws.sum = ws.getD i 0 * (area.w / ws.sum) := by
    intro i hi
    conv_lhs => rw [← haw]
    rw [show ws.sum * (area.w / ws.sum) * ws.getD i 0
          = ws.sum * (area.w / ws.sum * ws.getD i 0) by ring,
        Nat.mul_div_cancel_left _ hS, Nat.mul_comm]
  rw [PairwiseDisjoint, List.pairwise_iff_getElem]
  intro i j hi hj hij
  simp only [List.length_map, List.length_range] at hi hj
  simp only [List.getElem_map, List.getElem_range]
  have hgd : ∀ k (hk : k < ws.length), ws.getD k 0 = ws[k] := fun k hk =>
    List.getD_eq_getElem ws 0 hk
  have hmem : ∀ k, (hk : k < ws.length) → 1 ≤ ws.getD k 0 := by
    intro k hk
    rw [hgd k hk]
    exact hw1 _ (List.getElem_mem hk)
  have hmemU : ∀ k, (hk : k < ws.length) → area.w * ws.getD k 0 < U32 := by
    intro k hk
    rw [hgd k hk]
    exact hprod _ (List.getElem_mem hk)
  -- the emitted width is at most the exact cell
  have hwle : padW (area.w * ws.getD i 0 / ws.sum) (b + g)
      ≤ ws.getD i 0 * (area.w / ws.sum) := by
    rw [hcell i hi]
    have hcl : 1 ≤ ws.getD i 0 * (area.w / ws.sum) :=
      Nat.one_le_iff_ne_zero.2 (by
        have := Nat.mul_le_mul (hmem i hi) hP
        omega)
    have hcu : ws.getD i 0 * (area.w / ws.sum) < U32 := by
      have := hcell i hi
      rw [← this]
      exact lt_of_le_of_lt (Nat.div_le_self _ _) (hmemU i hi)
    have hpd : 2 * (b + g) ≤ ws.getD i 0 * (area.w / ws.sum) :=
      le_trans hpad (by
        have := Nat.mul_le_mul_right (area.w / ws.sum) (hmem i hi)
        omega)
    rw [padW_eq_padSpec _ _ hcu hpd]
    exact padSpec_le _ _ hcl
  -- x positions advance by at least the emitted width
  have hkey : (ws.take i).sum * (area.w / ws.sum)
        + padW (area.w * ws.getD i 0 / ws.sum) (b + g)
      ≤ (ws.take j).sum * (area.w / ws.sum) := by
    have hsucc : (ws.take (i + 1)).sum = (ws.take i).sum + ws.getD i 0 := by
      rw [List.sum_take_succ ws i hi, hgd i hi]
    have hmono : (ws.take (i + 1)).sum ≤ (ws.take j).sum :=
      sum_take_mono ws (by omega)
    have h1 : (ws.take i).sum * (area.w / ws.sum)
          + ws.getD i 0 * (area.w / ws.sum)
        = (ws.take (i + 1)).sum * (area.w / ws.sum) := by
      rw [hsucc, Nat.add_mul]
    have h2 : (ws.take (i + 1)).sum * (area.w / ws.sum)
        ≤ (ws.take j).sum * (area.w / ws.sum) :=
      Nat.mul_le_mul_right _ hmono
    omega
  intro hov
  obtain ⟨_, h2, _, _⟩ := hov
  simp only at h2
  have h2' : ((ws.take j).sum * (area.w / ws.sum) + g : Nat)
      < ((ws.take i).sum * (area.w / ws.sum) + g : Nat)
        + padW (area.w * ws.getD i 0 / ws.sum) (b + g) := by exact_mod_cast h2
  omega

/-! ## Geometry of `MasterLayout` when no padding clamps or wraps -/

theorem padW_exact (d tb : Nat) (h1 : 2 * tb + 1 ≤ d) (h2 : d < U32) :
    padW d tb = d - 2 * tb := by
  rw [padW, u32mul_eq 2 tb (by omega), u32sub_eq d (2 * tb) (by omega) h2]
  exact Nat.max_eq_left (by omega)

/-- Containment of `rect` in the box with corner `(px, py)` and size `pw × ph`. -/
def InBox (rect : Rect) (px py pw ph : Nat) : Prop :=
  (px : Int) ≤ rect.x ∧ rect.x + rect.w ≤ (px : Int) + (pw : Int) ∧
  (py : Int) ≤ rect.y ∧ rect.y + rect.h ≤ (py : Int) + (ph : Int)

theorem inBox_mk (px py pw ph ax ay aw ah : Nat)
    (h1 : px ≤ ax) (h2 : ax + aw ≤ px + pw) (h3 : py ≤ ay) (h4 : ay + ah ≤ py + ph) :
    InBox ⟨(ax : Int), (ay : Int), aw, ah⟩ px py pw ph := by
  unfold InBox
  refine ⟨?_, ?_, ?_, ?_⟩ <;> simp only <;> omega

theorem InBox_mono {rect : Rect} {px py pw ph px' py' pw' ph' : Nat}
    (h : InBox rect px' py' pw' ph')
    (h1 : px ≤ px') (h2 : px' + pw' ≤ px + pw)
    (h3 : py ≤ py') (h4 : py' + ph' ≤ py + ph) :
    InBox rect px py pw ph := by
  obtain ⟨a1, a2, a3, a4⟩ := h
  unfold InBox
  refine ⟨?_, ?_, ?_, ?_⟩ <;> omega

theorem not_overlaps_of_x {r1 r2 : Rect} (h : r1.x + r1.w ≤ r2.x) : ¬ Overlaps r1 r2 := by
  intro hov
  obtain ⟨_, h2, _, _⟩ := hov
  omega

theorem not_overlaps_of_y {r1 r2 : Rect} (h : r1.y + r1.h ≤ r2.y) : ¬ Overlaps r1 r2 := by
  intro hov
  obtain ⟨_, _, _, h4⟩ := hov
  omega

theorem masterGo_box (tb : Nat) (r : Nat) :
    ∀ (i px py pw ph : Nat),
      2 * tb + 1 ≤ pw / 2 ^ r → 2 * tb + 1 ≤ ph / 2 ^ r →
      px + pw < I32Half → py + ph < I32Half →
      (∀ rect ∈ masterGo tb i r px py pw ph, InBox rect px py pw ph) ∧
      PairwiseDisjoint (masterGo tb i r px py pw ph) := by
  induction r with
  | zero =>
    intro i px py pw ph _ _ _ _
    refine ⟨fun rect h => absurd h (by simp [masterGo]), ?_⟩
    simp [masterGo, PairwiseDisjoint]
  | succ r ihr =>
    intro i px py pw ph hw hh hxb hyb
    have hpxI : px < I32Half := by omega
    have hpyI : py < I32Half := by omega
    have hpwU : pw < U32 := lt_trans (by omega) I32Half_lt_U32
    have hphU : ph < U32 := lt_trans (by omega) I32Half_lt_U32
    rcases r with _ | k
    · -- exactly one window left: emit the whole remainder, padded
      have hw' : 2 * tb + 1 ≤ pw := le_trans hw (Nat.div_le_self _ _)
      have hh' : 2 * tb + 1 ≤ ph := le_trans hh (Nat.div_le_self _ _)
      simp only [masterGo]
      rw [padW_exact pw tb hw' hpwU, padW_exact ph tb hh' hphU,
          toI32_eq px hpxI, toI32_eq py hpyI]
      refine ⟨?_, ?_⟩
      · intro rect hr
        rw [List.mem_singleton] at hr
        subst hr
        exact inBox_mk px py pw ph px py _ _ (le_refl px) (by omega) (le_refl py) (by omega)
      · unfold PairwiseDisjoint
        exact List.pairwise_singleton _ _
    · -- at least two windows left: split the remainder
      have hpow : (2 : Nat) ^ (k + 1 + 1) = 2 * 2 ^ (k + 1) := pow_succ' 2 (k + 1)
      have hmono : ∀ d : Nat, d / 2 ^ (k + 2) ≤ d / 2 ^ (k + 1) := fun d =>
        Nat.div_le_div_left (Nat.pow_le_pow_right (by omega) (by omega))
          (pow_pos (by omega) _)
      simp only [masterGo]
      by_cases hpar : i % 2 = 0
      · rw [if_pos hpar]
        have hiwr : 2 * tb + 1 ≤ (pw / 2) / 2 ^ (k + 1) := by
          rw [Nat.div_div_eq_div_mul, ← hpow]
          exact hw
        have hphr : 2 * tb + 1 ≤ ph / 2 ^ (k + 1) := le_trans hh (hmono ph)
        have hiw2 : pw / 2 + pw / 2 ≤ pw := by omega
        have h2tbiw : 2 * tb + 1 ≤ pw / 2 := le_trans hiwr (Nat.div_le_self _ _)
        have h2tbph : 2 * tb + 1 ≤ ph := le_trans hphr (Nat.div_le_self _ _)
        have hiwU : pw / 2 < U32 := lt_of_le_of_lt (by omega) hpwU
        have haddU : px + pw / 2 < U32 := lt_trans (by omega) I32Half_lt_U32
        rw [u32add_eq px (pw / 2) haddU,
            padW_exact (pw / 2) tb h2tbiw hiwU, padW_exact ph tb h2tbph hphU,
            toI32_eq px hpxI, toI32_eq py hpyI]
        obtain ⟨ihbox, ihdisj⟩ :=
          ihr (i + 1) (px + pw / 2) py (pw / 2) ph hiwr hphr (by omega) hyb
        refine ⟨?_, ?_⟩
        · intro rect hr
          rcases List.mem_cons.1 hr with hhead | htail
          · subst hhead
            exact inBox_mk px py pw ph px py _ _ (le_refl px) (by omega)
              (le_refl py) (by omega)
          · exact InBox_mono (ihbox rect htail) (by omega) (by omega)
              (le_refl py) (le_refl (py + ph))
        · unfold PairwiseDisjoint
          rw [List.pairwise_cons]
          refine ⟨?_, ihdisj⟩
          intro t ht
          apply not_overlaps_of_x
          obtain ⟨b1, _, _, _⟩ := ihbox t ht
          simp only
          omega
      · rw [if_neg hpar]
        have hihr : 2 * tb + 1 ≤ (ph / 2) / 2 ^ (k + 1) := by
          rw [Nat.div_div_eq_div_mul, ← hpow]
          exact hh
        have hpwr : 2 * tb + 1 ≤ pw / 2 ^ (k + 1) := le_trans hw (hmono pw)
        have hih2 : ph / 2 + ph / 2 ≤ ph := by omega
        have h2tbih : 2 * tb + 1 ≤ ph / 2 := le_trans hihr (Nat.div_le_self _ _)
        have h2tbpw : 2 * tb + 1 ≤ pw := le_trans hpwr (Nat.div_le_self _ _)
        have hihU : ph / 2 < U32 := lt_of_le_of_lt (by omega) hphU
        have haddU : py + ph / 2 < U32 := lt_trans (by omega) I32Half_lt_U32
        rw [u32add_eq py (ph / 2) haddU,
            padW_exact pw tb h2tbpw hpwU, padW_exact (ph / 2) tb h2tbih hihU,
            toI32_eq px hpxI, toI32_eq py hpyI]
        obtain ⟨ihbox, ihdisj⟩ :=
          ihr (i + 1) px (py + ph / 2) pw (ph / 2) hpwr hihr hxb (by omega)
        refine ⟨?_, ?_⟩
        · intro rect hr
          rcases List.mem_cons.1 hr with hhead | htail
          · subst hhead
            exact inBox_mk px py pw ph px py _ _ (le_refl px) (by omega)
              (le_refl py) (by omega)
          · exact InBox_mono (ihbox rect htail) (le_refl px) (le_refl (px + pw))
              (by omega) (by omega)
        · unfold PairwiseDisjoint
          rw [List.pairwise_cons]
          refine ⟨?_, ihdisj⟩
          intro t ht
          apply not_overlaps_of_y
          obtain ⟨_, _, b3, _⟩ := ihbox t ht
          simp only
          omega

/-- C4 (amended): the emitted rectangles are pairwise disjoint under
conditions ruling out the `pad` clamp and the integer-division remainder
drift.  Horizontal: every weight positive, the weight sum divides `area.w`
with positive quotient, padding at most the partition width, and no `u32`
overflow.  Master: the remainder box after the gap stays at least
`2·(border + gap/2) + 1` wide and tall through `len(weights)` halvings, and
the screen fits in an `i32`. -/
theorem layouts_disjoint_amended :
    (∀ (area : Rect) (ws : List Nat) (b g : Nat),
        (∀ w ∈ ws, 1 ≤ w) → 0 < ws.sum → ws.sum < U32 →
        (∀ w ∈ ws, area.w * w < U32) → area.w + g < I32Half → b + g < U32 →
        ws.sum ∣ area.w → 1 ≤ area.w / ws.sum → 2 * (b + g) ≤ area.w / ws.sum →
        PairwiseDisjoint ((horizontal_generate_layout area ws b g).getD [])) ∧
    (∀ (area : Rect) (ws : List Nat) (b g : Nat),
        g ≤ area.w → g ≤ area.h → area.w < I32Half → area.h < I32Half →
        b + g / 2 < U32 →
        2 * (b + g / 2) + 1 ≤ (area.w - g) / 2 ^ ws.length →
        2 * (b + g / 2) + 1 ≤ (area.h - g) / 2 ^ ws.length →
        PairwiseDisjoint (master_generate_layout area ws b g)) := by
  constructor
  · intro area ws b g hw1 hS hSU hprod hx htb hdvd hP hpad
    exact horizontal_disjoint_aux area ws b g hw1 hS hSU hprod hx htb hdvd hP hpad
  · intro area ws b g hgw hgh hwI hhI htb hw hh
    unfold master_generate_layout
    rw [u32add_eq b (g / 2) htb,
        u32sub_eq area.w g hgw (lt_trans hwI I32Half_lt_U32),
        u32sub_eq area.h g hgh (lt_trans hhI I32Half_lt_U32)]
    exact (masterGo_box (b + g / 2) ws.length 0 g g (area.w - g) (area.h - g)
      hw hh (by omega) (by omega)).2

/-- C4 witness: both halves of the amended disjointness theorem applied to
`area = {0,0,1024,1024}`, `weights = [1,1]`, `border = 1`, `gap = 2`. -/
theorem layouts_disjoint_amended_witness :
    PairwiseDisjoint ((horizontal_generate_layout ⟨0, 0, 1024, 1024⟩ [1, 1] 1 2).getD []) ∧
    PairwiseDisjoint (master_generate_layout ⟨0, 0, 1024, 1024⟩ [1, 1] 1 2) := by
  constructor
  · exact layouts_disjoint_amended.1 ⟨0, 0, 1024, 1024⟩ [1, 1] 1 2 (by decide) (by decide)
      (by decide) (by decide) (by decide) (by decide) (by decide) (by decide) (by decide)
  · exact layouts_disjoint_amended.2 ⟨0, 0, 1024, 1024⟩ [1, 1] 1 2 (by decide) (by decide)
      (by decide) (by decide) (by decide) (by decide) (by decide)

theorem masterGo_head (tb r i px py pw ph : Nat) (hr : 1 ≤ r)
    (hw : 2 * tb + 1 ≤ pw / 2 ^ r) (hh : 2 * tb + 1 ≤ ph / 2 ^ r)
    (hwU : pw < U32) (hhU : ph < U32) :
    ∃ rest, masterGo tb i r px py pw ph =
      { x := toI32 px, y := toI32 py,
        w := (if r = 1 then pw else if i % 2 = 0 then pw / 2 else pw) - 2 * tb,
        h := (if r = 1 then ph else if i % 2 = 0 then ph else ph / 2) - 2 * tb } :: rest := by
  rcases r with _ | _ | k
  · omega
  · refine ⟨[], ?_⟩
    simp only [masterGo]
    rw [padW_exact pw tb (le_trans hw (Nat.div_le_self _ _)) hwU,
        padW_exact ph tb (le_trans hh (Nat.div_le_self _ _)) hhU]
    simp
  · have hne : ¬ (k + 1 + 1 = 1) := by omega
    have h2le : (2 : Nat) ≤ 2 ^ (k + 2) := by
      calc (2 : Nat) = 2 ^ 1 := (pow_one 2).symm
        _ ≤ 2 ^ (k + 2) := Nat.pow_le_pow_right (by omega) (by omega)
    have hmono : ∀ d : Nat, d / 2 ^ (k + 2) ≤ d / 2 := fun d =>
      Nat.div_le_div_left h2le (by omega)
    simp only [masterGo, if_neg hne]
    by_cases hpar : i % 2 = 0
    · rw [if_pos hpar, if_pos hpar, if_pos hpar,
          padW_exact (pw / 2) tb (le_trans hw (hmono pw)) (by omega),
          padW_exact ph tb (le_trans hh (Nat.div_le_self _ _)) hhU]
      exact ⟨_, rfl⟩
    · rw [if_neg hpar, if_neg hpar, if_neg hpar,
          padW_exact pw tb (le_trans hw (Nat.div_le_self _ _)) hwU,
          padW_exact (ph / 2) tb (le_trans hh (hmono ph)) (by omega)]
      exact ⟨_, rfl⟩

theorem masterGo_chain (tb : Nat) (r : Nat) :
    ∀ (i px py pw ph : Nat),
      2 * tb + 1 ≤ pw / 2 ^ r → 2 * tb + 1 ≤ ph / 2 ^ r → pw < U32 → ph < U32 →
      List.Chain' (fun r1 r2 => r2.w * r2.h ≤ r1.w * r1.h)
        (masterGo tb i r px py pw ph) := by
  induction r with
  | zero =>
    intro i px py pw ph _ _ _ _
    simp [masterGo]
  | succ r ihr =>
    intro i px py pw ph hw hh hwU hhU
    rcases r with _ | k
    · simp [masterGo]
    · have hpow : (2 : Nat) ^ (k + 1 + 1) = 2 * 2 ^ (k + 1) := pow_succ' 2 (k + 1)
      have hmono : ∀ d : Nat, d / 2 ^ (k + 2) ≤ d / 2 ^ (k + 1) := fun d =>
        Nat.div_le_div_left (Nat.pow_le_pow_right (by omega) (by omega))
          (pow_pos (by omega) _)
      simp only [masterGo]
      by_cases hpar : i % 2 = 0
      · rw [if_pos hpar]
        have hiwr : 2 * tb + 1 ≤ (pw / 2) / 2 ^ (k + 1) := by
          rw [Nat.div_div_eq_div_mul, ← hpow]
          exact hw
        have hphr : 2 * tb + 1 ≤ ph / 2 ^ (k + 1) := le_trans hh (hmono ph)
        have hiwU : pw / 2 < U32 := by omega
        rw [List.chain'_cons']
        constructor
        · obtain ⟨rest, hrest⟩ := masterGo_head tb (k + 1) (i + 1)
            (u32add px (pw / 2)) py (pw / 2) ph (by omega) hiwr hphr hiwU hhU
          rw [hrest]
          intro y hy
          rw [List.head?_cons, Option.mem_def, Option.some_inj] at hy
          subst hy
          simp only
          have hpar1 : ¬ ((i + 1) % 2 = 0) := by omega
          have hwEq : (if k + 1 = 1 then pw / 2
              else if (i + 1) % 2 = 0 then (pw / 2) / 2 else pw / 2) = pw / 2 := by
            rw [if_neg hpar1]
            split_ifs <;> rfl
          have hhLe : (if k + 1 = 1 then ph
              else if (i + 1) % 2 = 0 then ph else ph / 2) ≤ ph := by
            split_ifs <;> omega
          rw [hwEq, padW_exact (pw / 2) tb (le_trans hiwr (Nat.div_le_self _ _)) hiwU,
              padW_exact ph tb (le_trans hphr (Nat.div_le_self _ _)) hhU]
          exact Nat.mul_le_mul_left _ (Nat.sub_le_sub_right hhLe _)
        · exact ihr (i + 1) (u32add px (pw / 2)) py (pw / 2) ph hiwr hphr hiwU hhU
      · rw [if_neg hpar]
        have hihr : 2 * tb + 1 ≤ (ph / 2) / 2 ^ (k + 1) := by
          rw [Nat.div_div_eq_div_mul, ← hpow]
          exact hh
        have hpwr : 2 * tb + 1 ≤ pw / 2 ^ (k + 1) := le_trans hw (hmono pw)
        have hihU : ph / 2 < U32 := by omega
        rw [List.chain'_cons']
        constructor
        · obtain ⟨rest, hrest⟩ := masterGo_head tb (k + 1) (i + 1)
            px (u32add py (ph / 2)) pw (ph / 2) (by omega) hpwr hihr hwU hihU
          rw [hrest]
          intro y hy
          rw [List.head?_cons, Option.mem_def, Option.some_inj] at hy
          subst hy
          simp only
          have hpar1 : (i + 1) % 2 = 0 := by omega
          have hhEq : (if k + 1 = 1 then ph / 2
              else if (i + 1) % 2 = 0 then ph / 2 else (ph / 2) / 2) = ph / 2 := by
            rw [if_pos hpar1]
            split_ifs <;> rfl
          have hwLe : (if k + 1 = 1 then pw
              else if (i + 1) % 2 = 0 then pw / 2 else pw) ≤ pw := by
            split_ifs <;> omega
          rw [hhEq, padW_exact pw tb (le_trans hpwr (Nat.div_le_self _ _)) hwU,
              padW_exact (ph / 2) tb (le_trans hihr (Nat.div_le_self _ _)) hihU]
          exact Nat.mul_le_mul_right _ (Nat.sub_le_sub_right hwLe _)
        · exact ihr (i + 1) px (u32add py (ph / 2)) pw (ph / 2) hpwr hihr hwU hihU

theorem chain_area_le {l : List Rect}
    (h : List.Chain' (fun r1 r2 => r2.w * r2.h ≤ r1.w * r1.h) l) :
    ∀ i j, i ≤ j → j < l.length →
      (l.getD j ⟨0, 0, 0, 0⟩).w * (l.getD j ⟨0, 0, 0, 0⟩).h ≤
        (l.getD i ⟨0, 0, 0, 0⟩).w * (l.getD i ⟨0, 0, 0, 0⟩).h := by
  intro i j hij hj
  obtain ⟨k, rfl⟩ : ∃ k, j = i + k := ⟨j - i, by omega⟩
  clear hij
  induction k with
  | zero => exact le_refl _
  | succ k ihk =>
    have hk : i + k < l.length := by omega
    have step := List.chain'_iff_get.1 h (i + k) (by omega)
    simp only [List.get_eq_getElem] at step
    rw [List.getD_eq_getElem l _ hj, List.getD_eq_getElem l _ (by omega : i < l.length)]
    rw [List.getD_eq_getElem l _ hk, List.getD_eq_getElem l _ (by omega : i < l.length)]
      at ihk
    exact le_trans step (ihk (by omega))

/-- C6 (amended): the rectangle areas of `MasterLayout::generate_layout` are
non-increasing in index (so the master at index 0 is largest) provided the
post-gap remainder stays at least `2·(border + gap/2) + 1` wide and tall
through `len(weights)` halvings — otherwise `pad` clamps or wraps, and a
later rectangle can come out larger, as the counterexample shows. -/
theorem master_areas_nonincreasing (area : Rect) (ws : List Nat) (b g : Nat)
    (hgw : g ≤ area.w) (hgh : g ≤ area.h)
    (hwU : area.w < U32) (hhU : area.h < U32) (htb : b + g / 2 < U32)
    (hw : 2 * (b + g / 2) + 1 ≤ (area.w - g) / 2 ^ ws.length)
    (hh : 2 * (b + g / 2) + 1 ≤ (area.h - g) / 2 ^ ws.length) :
    ∀ i j, i ≤ j → j < (master_generate_layout area ws b g).length →
      ((master_generate_layout area ws b g).getD j ⟨0, 0, 0, 0⟩).w *
        ((master_generate_layout area ws b g).getD j ⟨0, 0, 0, 0⟩).h ≤
      ((master_generate_layout area ws b g).getD i ⟨0, 0, 0, 0⟩).w *
        ((master_generate_layout area ws b g).getD i ⟨0, 0, 0, 0⟩).h := by
  apply chain_area_le
  unfold master_generate_layout
  rw [u32add_eq b (g / 2) htb, u32sub_eq area.w g hgw hwU, u32sub_eq area.h g hgh hhU]
  exact masterGo_chain (b + g / 2) ws.length 0 g g (area.w - g) (area.h - g)
    hw hh (by omega) (by omega)

/-- C6 witness: the amended theorem applied to `area = {0,0,1024,1024}`,
three windows, `border = 1`, `gap = 2`, comparing indices 0 and 2. -/
theorem master_areas_nonincreasing_witness :
    ((master_generate_layout ⟨0, 0, 1024, 1024⟩ [1, 1, 1] 1 2).getD 2 ⟨0, 0, 0, 0⟩).w *
      ((master_generate_layout ⟨0, 0, 1024, 1024⟩ [1, 1, 1] 1 2).getD 2 ⟨0, 0, 0, 0⟩).h ≤
    ((master_generate_layout ⟨0, 0, 1024, 1024⟩ [1, 1, 1] 1 2).getD 0 ⟨0, 0, 0, 0⟩).w *
      ((master_generate_layout ⟨0, 0, 1024, 1024⟩ [1, 1, 1] 1 2).getD 0 ⟨0, 0, 0, 0⟩).h :=
  master_areas_nonincreasing ⟨0, 0, 1024, 1024⟩ [1, 1, 1] 1 2 (by decide) (by decide)
    (by decide) (by decide) (by decide) (by decide) (by decide) 0 2 (by decide) (by decide)
